import Mathlib

/-!
Verification of the perceptual image-matching core of `src/ImageSearch.py`.

The development shallowly embeds the program's data model and operations:

* fingerprints are bit vectors (`List Bool`); the Hamming distance of
  `imagehash.ImageHash.__sub__` is the count of differing positions;
* `best_match` (source lines 27-33) is a fold over the library entries in
  enumeration order, with `float('inf')` rendered as `⊤ : WithTop ℕ`;
* `load_library_hashes` (source lines 37-51) scans directory entries,
  filters by lower-cased `pathlib` suffix, skips per-file failures and
  raises (`Except.error`) when no entry was produced.  A directory entry is
  modelled as its base name together with the outcome (`Option`) of
  `Image.open` + `compute_phash` on it, which is where the source's
  `try ... except` catches;
* the auto-resize step of `App._pipeline` (source lines 149-154) is embedded
  over an RGBA bitmap type with PIL's `getbbox`/`crop` semantics; the
  external collaborators `rembg.remove` (composed with `convert('RGBA')`)
  and `PIL.Image.resize` are opaque function parameters;
* `compute_phash` (source lines 24-25) delegates to `imagehash.phash`,
  whose published implementation resizes the greyscale image to an
  `(4·hash_size) × (4·hash_size)` grid, applies `scipy.fftpack.dct` along
  axis 0 then axis 1 (type-II, unnormalised), keeps the top-left
  `hash_size × hash_size` block, and thresholds every retained coefficient
  strictly against the `numpy.median` of that block.  The greyscale
  conversion and Lanczos resize are linear, weight-normalised pixel
  operations, so they send a constant image to the constant grid and
  commute with a uniform brightness shift; the embedding therefore presents
  the image at the post-resize grid level (`ℕ → ℕ → ℕ`, 8-bit intensities,
  of which the transform reads the leading `64 × 64` window).
-/

/-- A perceptual fingerprint: a fixed-length bit vector (flattened
row-major, as `numpy` flattens the 2-D boolean array of `ImageHash`). -/
def FP : Type := List Bool

instance : DecidableEq FP := inferInstanceAs (DecidableEq (List Bool))

/-- Hamming distance between two fingerprints
(`imagehash.ImageHash.__sub__`: `count_nonzero(a.flat != b.flat)`); within
the program every compared pair has the same length. -/
def hashDist (a b : FP) : ℕ :=
  (a.zip b).countP fun p => p.1 != p.2

/-- `HASH_SIZE = 16  # pHash size ⇒ 64-bit hash` — source line 18. -/
def HASH_SIZE : ℕ := 16

/-- One step of the `for name, h in library_hashes.items()` loop of
`best_match` (source lines 29-32): the running best is replaced exactly
when the new distance is strictly smaller. -/
def bmStep (target : FP) (acc : Option String × WithTop ℕ) (e : String × FP) :
    Option String × WithTop ℕ :=
  if (hashDist target e.2 : WithTop ℕ) < acc.2
  then (some e.1, (hashDist target e.2 : WithTop ℕ))
  else acc

/-- `best_match(target_hash, library_hashes)` — source lines 27-33.  The
library dict is modelled as its `items()` sequence (Python dicts enumerate
in insertion order; base names inside one directory are distinct).  The
initial accumulator is `(None, float('inf'))`. -/
def best_match (target : FP) (lib : List (String × FP)) :
    Option String × WithTop ℕ :=
  lib.foldl (bmStep target) (none, ⊤)

/-- Characters strictly after the last `'.'` of a name, `none` when the
name has no dot.  Helper for the `pathlib.PurePath.suffix` model. -/
def afterLastDot : List Char → Option (List Char)
  | [] => none
  | c :: rest =>
    match afterLastDot rest with
    | some s => some s
    | none => if c = '.' then some rest else none

/-- `pathlib.PurePath.suffix` on a base name: with `i = name.rfind('.')`,
the result is `name[i:]` when `0 < i < len(name) - 1` and `""` otherwise.
When the last dot leaves `s` characters after it, `i = len - s.length - 1`,
so the two side conditions become `0 < len - s.length - 1` and `s ≠ []`. -/
def pathSuffixL (cs : List Char) : List Char :=
  match afterLastDot cs with
  | none => []
  | some s => if 0 < cs.length - s.length - 1 ∧ s ≠ [] then '.' :: s else []

/-- `pathlib` suffix at the `String` level. -/
def pathSuffix (name : String) : String := ⟨pathSuffixL name.data⟩

/-- Python `str.lower()` restricted to the ASCII range used by the
supported-extension comparison. -/
def lowerStr (s : String) : String := ⟨s.data.map Char.toLower⟩

/-- The supported-extension set of source line 40:
`{".png", ".jpg", ".jpeg", ".bmp", ".gif"}`. -/
def SUPPORTED_EXTS : List String := [".png", ".jpg", ".jpeg", ".bmp", ".gif"]

/-- `path.suffix.lower() in {...}` — the test a directory entry must pass
to be considered by `load_library_hashes` (source lines 40-41 guard with
`not in` and `continue`; candidacy is the complement). -/
def isCandidate (name : String) : Bool :=
  decide (lowerStr (pathSuffix name) ∈ SUPPORTED_EXTS)

/-- A directory entry seen by `IMAGES_DIR.iterdir()`: its base name
(`path.name`) and the outcome of `Image.open` plus `compute_phash` on it —
`some h` when loading and hashing succeed with fingerprint `h`, `none` when
any exception is raised (the `try ... except` of source lines 42-48). -/
structure DirFile where
  name : String
  hashResult : Option FP

/-- The `hashes` dict built by the loop of `load_library_hashes` (source
lines 38-48), as its insertion-order item list: supported-extension entries
that hashed successfully, in directory enumeration order. -/
def collectHashes : List DirFile → List (String × FP)
  | [] => []
  | f :: rest =>
    if isCandidate f.name then
      match f.hashResult with
      | some h => (f.name, h) :: collectHashes rest
      | none => collectHashes rest
    else collectHashes rest

/-- `load_library_hashes()` — source lines 37-51: build the hash dict and
raise (`RuntimeError`, the spec's `EmptyLibraryError`) when it is empty. -/
def load_library_hashes (dir : List DirFile) : Except String (List (String × FP)) :=
  let hashes := collectHashes dir
  if hashes = [] then Except.error "No supported images in Images/ directory."
  else Except.ok hashes

/-- An RGBA pixel (the pipeline converts to `'RGBA'` before cropping). -/
structure Pix where
  r : ℕ
  g : ℕ
  b : ℕ
  a : ℕ

/-- An in-memory bitmap: dimensions plus a pixel accessor (only the
`width × height` window is meaningful). -/
structure Img where
  width : ℕ
  height : ℕ
  px : ℕ → ℕ → Pix

/-- Coordinates whose alpha value is non-zero, scanned over the image
window — the non-transparent support that `alpha.getbbox()` boxes. -/
def alphaCoords (img : Img) : List (ℕ × ℕ) :=
  (((List.range img.width).map fun x =>
      (List.range img.height).map fun y => (x, y)).flatten).filter
    fun p => 0 < (img.px p.1 p.2).a

/-- `pil_no_bg.split()[-1].getbbox()` — PIL's bounding box of the non-zero
region of the alpha band: `None` when the band is identically zero, else
`(left, upper, right, lower)` with exclusive right/lower edges. -/
def getbbox (img : Img) : Option (ℕ × ℕ × ℕ × ℕ) :=
  match alphaCoords img with
  | [] => none
  | p :: rest =>
    some (((p :: rest).map Prod.fst).foldl min p.1,
          ((p :: rest).map Prod.snd).foldl min p.2,
          ((p :: rest).map Prod.fst).foldl max p.1 + 1,
          ((p :: rest).map Prod.snd).foldl max p.2 + 1)

/-- `img.crop((l, u, r, lo))` — PIL crop: size `(r - l, lo - u)`, pixel
`(x, y)` taken from `(x + l, y + u)` of the source. -/
def crop (img : Img) (bb : ℕ × ℕ × ℕ × ℕ) : Img :=
  ⟨bb.2.2.1 - bb.1, bb.2.2.2 - bb.2.1, fun x y => img.px (x + bb.1) (y + bb.2.1)⟩

/-- PIL resampling filters; the pipeline always passes `Image.LANCZOS`. -/
inductive ResampleFilter
  | lanczos
  | bilinear
  | nearest

/-- The normalization segment of `App._pipeline` (source lines 149-154):

    pil_no_bg = remove(pil).convert('RGBA')
    if self.auto_resize.get():
        alpha = pil_no_bg.split()[-1]
        bbox = alpha.getbbox()
        if bbox:
            pil_no_bg = pil_no_bg.crop(bbox).resize(pil.size, Image.LANCZOS)

`removeBg` models the opaque collaborator `remove(·).convert('RGBA')` and
`resize` models `PIL.Image.resize` (image, target `(width, height)`,
filter); both are external to the repository and passed as parameters. -/
def pipelineNormalize (removeBg : Img → Img)
    (resize : Img → ℕ × ℕ → ResampleFilter → Img)
    (autoResize : Bool) (raw : Img) : Img :=
  let noBg := removeBg raw
  if autoResize then
    match getbbox noBg with
    | some bb => resize (crop noBg bb) (raw.width, raw.height) ResampleFilter.lanczos
    | none => noBg
  else noBg

/-- `scipy.fftpack.dct` (type II, `norm=None`) of a length-`N` sequence:
`X_k = 2 * Σ_{n<N} x_n * cos(π k (2n+1) / (2N))`. -/
noncomputable def dct (N : ℕ) (x : ℕ → ℝ) (k : ℕ) : ℝ :=
  2 * ∑ n ∈ Finset.range N, x n * Real.cos (Real.pi * k * (2 * n + 1) / (2 * N))

/-- `scipy.fftpack.dct(scipy.fftpack.dct(pixels, axis=0), axis=1)` of
`imagehash.phash`: the 1-D transform over the first index, then over the
second. -/
noncomputable def dct2d (N : ℕ) (p : ℕ → ℕ → ℝ) (k l : ℕ) : ℝ :=
  dct N (fun m => dct N (fun n => p n m) k) l

/-- `dctlowfreq = dct[:hash_size, :hash_size]` of `imagehash.phash`,
flattened row-major (C order), computed from the
`(4·hashSize) × (4·hashSize)` resized greyscale grid
(`img_size = hash_size * highfreq_factor`, `highfreq_factor = 4`). -/
noncomputable def dctlowfreq (hashSize : ℕ) (g : ℕ → ℕ → ℕ) : List ℝ :=
  (List.range (hashSize * hashSize)).map fun idx =>
    dct2d (hashSize * 4) (fun n m => (g n m : ℝ)) (idx / hashSize) (idx % hashSize)

/-- `numpy.median` of a flat list: the middle element of the sorted data
for odd length, the mean of the two middle elements for even length. -/
noncomputable def npMedian (l : List ℝ) : ℝ :=
  if l.length % 2 = 1 then (l.insertionSort (· ≤ ·)).getD (l.length / 2) 0
  else ((l.insertionSort (· ≤ ·)).getD (l.length / 2 - 1) 0 +
        (l.insertionSort (· ≤ ·)).getD (l.length / 2) 0) / 2

/-- `compute_phash(pil_img, hash_size=HASH_SIZE)` — source lines 24-25 —
delegating to `imagehash.phash`: `diff = dctlowfreq > med`, one bit per
retained coefficient, flattened row-major.  `g` is the image presented at
the resized greyscale grid level (see the module docstring). -/
noncomputable def compute_phash (g : ℕ → ℕ → ℕ) (hashSize : ℕ := HASH_SIZE) :
    List Bool :=
  (dctlowfreq hashSize g).map fun c =>
    if npMedian (dctlowfreq hashSize g) < c then true else false

/-- A uniform brightness shift of a pixel grid by `c` (clamped at zero the
way an 8-bit buffer would be; the non-clipping hypotheses of the theorems
keep every shifted value inside `[0, 255]`, where no clamping happens). -/
def shiftGrid (g : ℕ → ℕ → ℕ) (c : ℤ) : ℕ → ℕ → ℕ :=
  fun n m => ((g n m : ℤ) + c).toNat

/-- Characterisation of the `best_match` fold from an arbitrary
accumulator: either no entry's distance is strictly below the accumulator's
and the accumulator is returned unchanged, or the result is the first entry
attaining the minimum distance (every earlier entry is strictly farther). -/
theorem bmFold_spec (q : FP) (l : List (String × FP)) :
    ∀ a : Option String × WithTop ℕ,
      (l.foldl (bmStep q) a = a ∧ ∀ e ∈ l, a.2 ≤ (hashDist q e.2 : WithTop ℕ))
    ∨ (∃ i : Fin l.length,
        l.foldl (bmStep q) a =
          (some (l.get i).1, (hashDist q (l.get i).2 : WithTop ℕ)) ∧
        (hashDist q (l.get i).2 : WithTop ℕ) < a.2 ∧
        (∀ j : Fin l.length, hashDist q (l.get i).2 ≤ hashDist q (l.get j).2) ∧
        (∀ j : Fin l.length, (j : ℕ) < (i : ℕ) →
          hashDist q (l.get i).2 < hashDist q (l.get j).2)) := by
  induction l with
  | nil => intro a; exact Or.inl ⟨rfl, by simp⟩
  | cons e t ih =>
    intro a
    by_cases hc : (hashDist q e.2 : WithTop ℕ) < a.2
    · have hfold : (e :: t).foldl (bmStep q) a
          = t.foldl (bmStep q) (some e.1, (hashDist q e.2 : WithTop ℕ)) := by
        rw [List.foldl_cons]; unfold bmStep; rw [if_pos hc]
      rcases ih (some e.1, (hashDist q e.2 : WithTop ℕ)) with
        ⟨heq, hall⟩ | ⟨i, heq, hlt, hmin, hprev⟩
      · refine Or.inr ⟨⟨0, by simp⟩, by rw [hfold, heq]; rfl, hc, ?_, ?_⟩
        · intro j
          induction j using Fin.cases with
          | zero => exact le_refl _
          | succ k =>
            have := hall (t.get k) (t.get_mem _ k.2)
            simpa [WithTop.coe_le_coe] using this
        · intro j hj
          exact absurd hj (by simp)
      · refine Or.inr ⟨i.succ, ?_, lt_trans hlt hc, ?_, ?_⟩
        · rw [hfold, heq]; simp [List.get_cons_succ]
        · intro j
          induction j using Fin.cases with
          | zero =>
            simpa [WithTop.coe_lt_coe] using le_of_lt hlt
          | succ k => simpa [List.get_cons_succ] using hmin k
        · intro j hj
          induction j using Fin.cases with
          | zero =>
            simpa [WithTop.coe_lt_coe] using hlt
          | succ k =>
            have hk : (k : ℕ) < (i : ℕ) := by simpa using hj
            simpa [List.get_cons_succ] using hprev k hk
    · have hfold : (e :: t).foldl (bmStep q) a = t.foldl (bmStep q) a := by
        rw [List.foldl_cons]; unfold bmStep; rw [if_neg hc]
      have hae : a.2 ≤ (hashDist q e.2 : WithTop ℕ) := not_lt.mp hc
      rcases ih a with ⟨heq, hall⟩ | ⟨i, heq, hlt, hmin, hprev⟩
      · refine Or.inl ⟨by rw [hfold, heq], ?_⟩
        intro x hx
        rcases List.mem_cons.mp hx with hx0 | hx1
        · rw [hx0]; exact hae
        · exact hall x hx1
      · have hie : (hashDist q (t.get i).2 : WithTop ℕ)
            < (hashDist q e.2 : WithTop ℕ) := lt_of_lt_of_le hlt hae
        refine Or.inr ⟨i.succ, ?_, hlt, ?_, ?_⟩
        · rw [hfold, heq]; simp [List.get_cons_succ]
        · intro j
          induction j using Fin.cases with
          | zero =>
            simpa [WithTop.coe_lt_coe] using le_of_lt hie
          | succ k => simpa [List.get_cons_succ] using hmin k
        · intro j hj
          induction j using Fin.cases with
          | zero =>
            simpa [WithTop.coe_lt_coe] using hie
          | succ k =>
            have hk : (k : ℕ) < (i : ℕ) := by simpa using hj
            simpa [List.get_cons_succ] using hprev k hk

/-- C1: for every non-empty library index and every query fingerprint,
`best_match` returns an entry whose Hamming distance to the query is
minimal over all entries, and among the entries attaining the minimum it
returns the first one in the enumeration order of the index. -/
theorem best_match_minimal_first (q : FP) (lib : List (String × FP))
    (hne : lib ≠ []) :
    ∃ i : Fin lib.length,
      best_match q lib =
        (some (lib.get i).1, (hashDist q (lib.get i).2 : WithTop ℕ)) ∧
      (∀ j : Fin lib.length,
        hashDist q (lib.get i).2 ≤ hashDist q (lib.get j).2) ∧
      (∀ j : Fin lib.length,
        hashDist q (lib.get j).2 = hashDist q (lib.get i).2 → (i : ℕ) ≤ (j : ℕ)) := by
  rcases bmFold_spec q lib (none, ⊤) with ⟨heq, hall⟩ | ⟨i, heq, hlt, hmin, hprev⟩
  · rcases lib with _ | ⟨x, xs⟩
    · exact absurd rfl hne
    · have hx := hall x (List.mem_cons_self x xs)
      simp at hx
  · refine ⟨i, heq, hmin, ?_⟩
    intro j hj
    by_contra hji
    push_neg at hji
    exact absurd hj (ne_of_gt (hprev j hji))

/-- Witness for C1 at a concrete index and query. -/
theorem best_match_minimal_first_witness :
    (([("a", [true, false]), ("b", [false, false])] : List (String × FP)) ≠ []) ∧
    ∃ i : Fin ([("a", [true, false]), ("b", [false, false])] : List (String × FP)).length,
      best_match [false, false] [("a", [true, false]), ("b", [false, false])] =
        (some (([("a", [true, false]), ("b", [false, false])] : List (String × FP)).get i).1,
         (hashDist [false, false]
            (([("a", [true, false]), ("b", [false, false])] : List (String × FP)).get i).2 : WithTop ℕ)) ∧
      (∀ j : Fin ([("a", [true, false]), ("b", [false, false])] : List (String × FP)).length,
        hashDist [false, false] (([("a", [true, false]), ("b", [false, false])] : List (String × FP)).get i).2
          ≤ hashDist [false, false] (([("a", [true, false]), ("b", [false, false])] : List (String × FP)).get j).2) ∧
      (∀ j : Fin ([("a", [true, false]), ("b", [false, false])] : List (String × FP)).length,
        hashDist [false, false] (([("a", [true, false]), ("b", [false, false])] : List (String × FP)).get j).2
          = hashDist [false, false] (([("a", [true, false]), ("b", [false, false])] : List (String × FP)).get i).2
          → (i : ℕ) ≤ (j : ℕ)) :=
  ⟨by decide, best_match_minimal_first [false, false]
    [("a", [true, false]), ("b", [false, false])] (by decide)⟩

/-- C5: the matcher never raises — on the empty index it returns the
"no match" result `(None, float('inf'))`, and on any non-empty index it
returns a best name together with a finite distance, a natural number
(hence an integer `≥ 0`). -/
theorem best_match_no_raise (q : FP) (lib : List (String × FP))
    (hne : lib ≠ []) :
    best_match q [] = ((none : Option String), (⊤ : WithTop ℕ)) ∧
    ∃ nm : String, ∃ d : ℕ,
      best_match q lib = (some nm, (d : WithTop ℕ)) ∧ 0 ≤ d := by
  refine ⟨rfl, ?_⟩
  rcases bmFold_spec q lib (none, ⊤) with ⟨heq, hall⟩ | ⟨i, heq, hlt, hmin, hprev⟩
  · rcases lib with _ | ⟨x, xs⟩
    · exact absurd rfl hne
    · have hx := hall x (List.mem_cons_self x xs)
      simp at hx
  · exact ⟨(lib.get i).1, hashDist q (lib.get i).2, heq, Nat.zero_le _⟩

/-- Witness for C5 at a concrete index and query. -/
theorem best_match_no_raise_witness :
    (([("a", [true])] : List (String × FP)) ≠ []) ∧
    (best_match [false] [] = ((none : Option String), (⊤ : WithTop ℕ)) ∧
     ∃ nm : String, ∃ d : ℕ,
       best_match [false] [("a", [true])] = (some nm, (d : WithTop ℕ)) ∧ 0 ≤ d) :=
  ⟨by decide, best_match_no_raise [false] [("a", [true])] (by decide)⟩

/-- C8 (amended): extending the index with an exact duplicate of an
existing entry's fingerprint under a new name leaves the match result —
returned name and minimum distance — unchanged (the duplicate's distance
to the query equals the original's, being the distance to the very same
fingerprint, and the strict-improvement tie-break never selects the later
duplicate). -/
theorem best_match_duplicate_stable (q : FP) (lib : List (String × FP))
    (n : String) (h : FP) (n2 : String) (hmem : (n, h) ∈ lib) :
    best_match q (lib ++ [(n2, h)]) = best_match q lib := by
  unfold best_match
  rw [List.foldl_append]
  rcases bmFold_spec q lib (none, ⊤) with ⟨heq, hall⟩ | ⟨i, heq, hlt, hmin, hprev⟩
  · have hx := hall (n, h) hmem
    simp at hx
  · rw [heq]
    show bmStep q _ (n2, h) = _
    unfold bmStep
    rw [if_neg]
    rcases List.mem_iff_get.mp hmem with ⟨j, hjget⟩
    have hle : hashDist q (lib.get i).2 ≤ hashDist q h := by
      have := hmin j
      rw [hjget] at this
      exact this
    simpa [WithTop.coe_le_coe] using not_lt.mpr (WithTop.coe_le_coe.mpr hle)

/-- Witness for C8's amended statement at a concrete index. -/
theorem best_match_duplicate_stable_witness :
    (("far", ([false, true] : FP)) ∈
      ([("near", [false, false]), ("far", [false, true])] : List (String × FP))) ∧
    best_match [false, false]
        ([("near", [false, false]), ("far", [false, true])] ++ [("far2", [false, true])]) =
      best_match [false, false] [("near", [false, false]), ("far", [false, true])] :=
  ⟨by decide, best_match_duplicate_stable [false, false]
    [("near", [false, false]), ("far", [false, true])] "far" [false, true] "far2"
    (by decide)⟩

/-- C8 (counterexample): duplicating an entry that is not the best match
leaves the returned name an entry that is neither of the two duplicates,
refuting the claim's universally quantified third conjunct ("the returned
name is one of the two duplicates"). -/
theorem best_match_duplicate_counterexample :
    best_match [false, false]
        [("near", [false, false]), ("far", [false, true]), ("far2", [false, true])] =
      (some "near", ((0 : ℕ) : WithTop ℕ)) ∧
    "near" ≠ "far" ∧ "near" ≠ "far2" :=
  ⟨by decide, by decide, by decide⟩

/-- Unfolding equation for one step of the library scan: the head entry
contributes its singleton item list when it passes the extension test and
hashes successfully, and nothing otherwise. -/
theorem collectHashes_cons (f : DirFile) (l : List DirFile) :
    collectHashes (f :: l) =
      (if isCandidate f.name then
        (match f.hashResult with
         | some h => [(f.name, h)]
         | none => []) else []) ++ collectHashes l := by
  by_cases hc : isCandidate f.name
  · cases hr : f.hashResult <;> simp [collectHashes, hc, hr]
  · simp [collectHashes, hc]

/-- The library scan distributes over list append (the scan is a
left-to-right accumulation). -/
theorem collectHashes_append (xs ys : List DirFile) :
    collectHashes (xs ++ ys) = collectHashes xs ++ collectHashes ys := by
  induction xs with
  | nil => simp [collectHashes]
  | cons f rest ih =>
    rw [List.cons_append, collectHashes_cons, collectHashes_cons, ih,
      List.append_assoc]

/-- Every supported-extension entry that hashes successfully contributes
its item to the scan result. -/
theorem collectHashes_mem (dir : List DirFile) (g : DirFile) (h : FP)
    (hg : g ∈ dir) (hc : isCandidate g.name = true)
    (hh : g.hashResult = some h) :
    (g.name, h) ∈ collectHashes dir := by
  induction dir with
  | nil => cases hg
  | cons f rest ih =>
    rw [collectHashes_cons]
    rcases List.mem_cons.mp hg with rfl | hmem
    · exact List.mem_append_left _ (by simp [hc, hh])
    · exact List.mem_append_right _ (ih hmem)

/-- C3: when no file of the directory yields a usable fingerprint — every
supported-extension entry fails to load or hash — the build raises
(`RuntimeError`, the spec's `EmptyLibraryError`) instead of returning an
index. -/
theorem load_library_hashes_empty_error (dir : List DirFile)
    (hfail : ∀ f ∈ dir, isCandidate f.name = true → f.hashResult = none) :
    load_library_hashes dir =
      Except.error "No supported images in Images/ directory." := by
  have hnil : collectHashes dir = [] := by
    induction dir with
    | nil => rfl
    | cons f rest ih =>
      rw [collectHashes_cons,
        ih fun g hg hcg => hfail g (List.mem_cons_of_mem f hg) hcg]
      by_cases hc : isCandidate f.name
      · rw [hfail f (List.mem_cons_self f rest) hc]; simp [hc]
      · simp [hc]
  simp [load_library_hashes, hnil]

/-- Witness for C3: a directory whose only supported file fails to hash
(and an unsupported text file that may not count). -/
theorem load_library_hashes_empty_error_witness :
    (∀ f ∈ ([⟨"a.png", none⟩, ⟨"notes.txt", some [true]⟩] : List DirFile),
      isCandidate f.name = true → f.hashResult = none) ∧
    load_library_hashes [⟨"a.png", none⟩, ⟨"notes.txt", some [true]⟩] =
      Except.error "No supported images in Images/ directory." :=
  ⟨by decide, load_library_hashes_empty_error
    [⟨"a.png", none⟩, ⟨"notes.txt", some [true]⟩] (by decide)⟩

/-- C6: a supported-extension file that fails to load or hash is skipped —
the build result is exactly the build over the directory without it (so
the failure aborts nothing), and every other usable file still contributes
its entry to the index. -/
theorem perfile_failure_skipped (xs ys : List DirFile) (f : DirFile)
    (_hcand : isCandidate f.name = true) (hfail : f.hashResult = none) :
    load_library_hashes (xs ++ f :: ys) = load_library_hashes (xs ++ ys) ∧
    ∀ g : DirFile, ∀ h : FP, g ∈ xs ++ ys → isCandidate g.name = true →
      g.hashResult = some h → (g.name, h) ∈ collectHashes (xs ++ f :: ys) := by
  have hskip : collectHashes (xs ++ f :: ys) = collectHashes (xs ++ ys) := by
    rw [collectHashes_append, collectHashes_append, collectHashes_cons, hfail]
    simp
  constructor
  · simp [load_library_hashes, hskip]
  · intro g h hg hgc hgh
    rw [hskip]
    exact collectHashes_mem _ g h hg hgc hgh

/-- Witness for C6: a failing `b.png` between two usable files. -/
theorem perfile_failure_skipped_witness :
    (isCandidate (DirFile.mk "b.png" none).name = true) ∧
    ((DirFile.mk "b.png" none).hashResult = none) ∧
    (load_library_hashes ([⟨"a.png", some [true]⟩] ++ ⟨"b.png", none⟩ :: [⟨"c.gif", some [false]⟩]) =
       load_library_hashes ([⟨"a.png", some [true]⟩] ++ [⟨"c.gif", some [false]⟩]) ∧
     ∀ g : DirFile, ∀ h : FP,
       g ∈ [⟨"a.png", some [true]⟩] ++ [⟨"c.gif", some [false]⟩] →
       isCandidate g.name = true → g.hashResult = some h →
       (g.name, h) ∈ collectHashes ([⟨"a.png", some [true]⟩] ++ ⟨"b.png", none⟩ :: [⟨"c.gif", some [false]⟩])) :=
  ⟨by decide, by decide,
   perfile_failure_skipped [⟨"a.png", some [true]⟩] [⟨"c.gif", some [false]⟩]
     ⟨"b.png", none⟩ (by decide) (by decide)⟩

/-- C9: the build considers exactly the files whose lower-cased extension
is in the supported set — the scan equals the scan of the supported-only
sublist, and inserting a file with any other extension (such as
`notes.txt`) anywhere changes neither the index nor the error behaviour. -/
theorem unsupported_extension_ignored (xs ys : List DirFile) (f : DirFile)
    (hf : isCandidate f.name = false) :
    load_library_hashes (xs ++ f :: ys) = load_library_hashes (xs ++ ys) ∧
    ∀ dir : List DirFile,
      collectHashes dir = collectHashes (dir.filter fun g => isCandidate g.name) := by
  constructor
  · rw [load_library_hashes, load_library_hashes,
      collectHashes_append, collectHashes_append, collectHashes_cons, hf]
    simp
  · intro dir
    induction dir with
    | nil => rfl
    | cons g rest ih =>
      by_cases hg : isCandidate g.name
      · rw [List.filter_cons_of_pos (by simpa using hg), collectHashes_cons,
          collectHashes_cons, ih]
      · rw [List.filter_cons_of_neg (by simpa using hg), collectHashes_cons,
          if_neg hg, ih]
        simp

/-- Witness for C9: a `notes.txt` inserted between two image files. -/
theorem unsupported_extension_ignored_witness :
    (isCandidate (DirFile.mk "notes.txt" (some [true])).name = false) ∧
    (load_library_hashes ([⟨"a.png", some [true]⟩] ++ ⟨"notes.txt", some [true]⟩ :: [⟨"b.gif", some [false]⟩]) =
       load_library_hashes ([⟨"a.png", some [true]⟩] ++ [⟨"b.gif", some [false]⟩]) ∧
     ∀ dir : List DirFile,
       collectHashes dir = collectHashes (dir.filter fun g => isCandidate g.name)) :=
  ⟨by decide,
   unsupported_extension_ignored [⟨"a.png", some [true]⟩] [⟨"b.gif", some [false]⟩]
     ⟨"notes.txt", some [true]⟩ (by decide)⟩

/-- A dot-free name has no last-dot decomposition. -/
theorem afterLastDot_of_not_mem (l : List Char) (h : '.' ∉ l) :
    afterLastDot l = none := by
  induction l with
  | nil => rfl
  | cons c rest ih =>
    have hc : ¬(c = '.') := fun e => h (e ▸ List.mem_cons_self c rest)
    simp [afterLastDot, ih fun m => h (List.mem_cons_of_mem c m), hc]

/-- The characters after the last dot of `stem ++ '.' :: ext` are `ext`
when `ext` itself is dot-free. -/
theorem afterLastDot_append (stem ext : List Char) (hext : '.' ∉ ext) :
    afterLastDot (stem ++ '.' :: ext) = some ext := by
  induction stem with
  | nil => simp [afterLastDot, afterLastDot_of_not_mem ext hext]
  | cons c rest ih => simp [afterLastDot, ih]

/-- `pathlib` suffix of `stem.ext` for a non-empty stem and a non-empty
dot-free extension: the dot plus the extension. -/
theorem pathSuffixL_append (stem ext : List Char) (hstem : stem ≠ [])
    (hext : ext ≠ []) (hdot : '.' ∉ ext) :
    pathSuffixL (stem ++ '.' :: ext) = '.' :: ext := by
  unfold pathSuffixL
  rw [afterLastDot_append stem ext hdot]
  show (if 0 < (stem ++ '.' :: ext).length - ext.length - 1 ∧ ext ≠ []
        then '.' :: ext else []) = '.' :: ext
  have hlen : (stem ++ '.' :: ext).length - ext.length - 1 = stem.length := by
    simp [List.length_append]
    omega
  rw [hlen, if_pos ⟨List.length_pos.mpr hstem, hext⟩]

/-- C10: extension matching is case-insensitive — a file whose extension
differs from a supported one only in letter case (its lower-casing is a
supported extension) passes the candidacy test, exactly as the file with
the lower-cased extension does. -/
theorem extension_case_insensitive (stem ext : List Char) (hstem : stem ≠ [])
    (hsup : ('.' :: ext.map Char.toLower) ∈ SUPPORTED_EXTS.map String.data) :
    isCandidate ⟨stem ++ '.' :: ext⟩ = true ∧
    isCandidate ⟨stem ++ '.' :: ext.map Char.toLower⟩ = true := by
  rw [show SUPPORTED_EXTS.map String.data =
      [['.','p','n','g'], ['.','j','p','g'], ['.','j','p','e','g'],
       ['.','b','m','p'], ['.','g','i','f']] from by decide] at hsup
  simp only [List.mem_cons, List.not_mem_nil, or_false, List.cons.injEq,
    true_and] at hsup
  have hdotlow : '.' ∉ ext.map Char.toLower := by
    rcases hsup with htl | htl | htl | htl | htl <;> rw [htl] <;> decide
  have hne : ext ≠ [] := by
    intro h
    rw [h] at hsup
    rcases hsup with htl | htl | htl | htl | htl <;> simp at htl
  have hnel : ext.map Char.toLower ≠ [] := by
    simpa using hne
  have hdot : '.' ∉ ext := by
    intro hm
    exact hdotlow (by
      simpa [show Char.toLower '.' = '.' from by decide] using
        List.mem_map_of_mem Char.toLower hm)
  have hid : (ext.map Char.toLower).map Char.toLower = ext.map Char.toLower := by
    rcases hsup with htl | htl | htl | htl | htl <;> rw [htl] <;> decide
  have hmem : (⟨'.' :: ext.map Char.toLower⟩ : String) ∈ SUPPORTED_EXTS := by
    rcases hsup with htl | htl | htl | htl | htl <;> rw [htl] <;> decide
  constructor
  · show decide (lowerStr (pathSuffix ⟨stem ++ '.' :: ext⟩) ∈ SUPPORTED_EXTS) = true
    rw [decide_eq_true_eq]
    show lowerStr ⟨pathSuffixL (stem ++ '.' :: ext)⟩ ∈ SUPPORTED_EXTS
    rw [pathSuffixL_append stem ext hstem hne hdot]
    show (⟨('.' :: ext).map Char.toLower⟩ : String) ∈ SUPPORTED_EXTS
    rw [List.map_cons, show Char.toLower '.' = '.' from by decide]
    exact hmem
  · show decide (lowerStr (pathSuffix ⟨stem ++ '.' :: ext.map Char.toLower⟩) ∈ SUPPORTED_EXTS) = true
    rw [decide_eq_true_eq]
    show lowerStr ⟨pathSuffixL (stem ++ '.' :: ext.map Char.toLower)⟩ ∈ SUPPORTED_EXTS
    rw [pathSuffixL_append stem _ hstem hnel hdotlow]
    show (⟨('.' :: ext.map Char.toLower).map Char.toLower⟩ : String) ∈ SUPPORTED_EXTS
    rw [List.map_cons, show Char.toLower '.' = '.' from by decide, hid]
    exact hmem

/-- Witness for C10: `shot.PNG` is a candidate, exactly as `shot.png`. -/
theorem extension_case_insensitive_witness :
    ((['s','h','o','t'] : List Char) ≠ []) ∧
    (('.' :: (['P','N','G'] : List Char).map Char.toLower) ∈ SUPPORTED_EXTS.map String.data) ∧
    (isCandidate ⟨['s','h','o','t'] ++ '.' :: ['P','N','G']⟩ = true ∧
     isCandidate ⟨['s','h','o','t'] ++ '.' :: (['P','N','G'] : List Char).map Char.toLower⟩ = true) :=
  ⟨by decide, by decide,
   extension_case_insensitive ['s','h','o','t'] ['P','N','G'] (by decide) (by decide)⟩

/-- C4: with auto-resize enabled, when the bounding box of the
non-transparent pixels of the background-removed image is empty the
background-removed image is used unchanged (no error); otherwise the image
is cropped to that bounding box and rescaled to the original raw image's
dimensions — not the pre-crop size — with the Lanczos filter.  The
external collaborators (`remove(·).convert('RGBA')` and `PIL` resize) are
arbitrary parameters. -/
theorem pipeline_autoresize_spec (removeBg : Img → Img)
    (resize : Img → ℕ × ℕ → ResampleFilter → Img) (raw : Img) :
    (getbbox (removeBg raw) = none →
      pipelineNormalize removeBg resize true raw = removeBg raw) ∧
    ∀ bb : ℕ × ℕ × ℕ × ℕ, getbbox (removeBg raw) = some bb →
      pipelineNormalize removeBg resize true raw =
        resize (crop (removeBg raw) bb) (raw.width, raw.height)
          ResampleFilter.lanczos := by
  constructor
  · intro hb
    simp [pipelineNormalize, hb]
  · intro bb hb
    simp [pipelineNormalize, hb]

/-- Witness for C4: the pass-through collaborators on a fully transparent
1×1 removal result (empty box, unchanged) and on an opaque 2×1 image
(cropped to its box and rescaled to the raw 2×1 dimensions). -/
theorem pipeline_autoresize_spec_witness :
    (getbbox ((fun i : Img => i) (⟨1, 1, fun _ _ => ⟨0, 0, 0, 0⟩⟩ : Img)) = none ∧
     pipelineNormalize (fun i => i) (fun i wh _ => ⟨wh.1, wh.2, i.px⟩) true
        (⟨1, 1, fun _ _ => ⟨0, 0, 0, 0⟩⟩ : Img) =
       (fun i : Img => i) (⟨1, 1, fun _ _ => ⟨0, 0, 0, 0⟩⟩ : Img)) ∧
    (getbbox ((fun i : Img => i) (⟨2, 1, fun _ _ => ⟨1, 2, 3, 4⟩⟩ : Img)) =
        some (0, 0, 2, 1) ∧
     pipelineNormalize (fun i => i) (fun i wh _ => ⟨wh.1, wh.2, i.px⟩) true
        (⟨2, 1, fun _ _ => ⟨1, 2, 3, 4⟩⟩ : Img) =
       (fun i wh _ => (⟨wh.1, wh.2, i.px⟩ : Img))
         (crop ((fun i : Img => i) (⟨2, 1, fun _ _ => ⟨1, 2, 3, 4⟩⟩ : Img)) (0, 0, 2, 1))
         ((⟨2, 1, fun _ _ => ⟨1, 2, 3, 4⟩⟩ : Img).width,
          (⟨2, 1, fun _ _ => ⟨1, 2, 3, 4⟩⟩ : Img).height)
         ResampleFilter.lanczos) :=
  ⟨⟨by decide, (pipeline_autoresize_spec (fun i => i)
      (fun i wh _ => ⟨wh.1, wh.2, i.px⟩) ⟨1, 1, fun _ _ => ⟨0, 0, 0, 0⟩⟩).1 (by decide)⟩,
   ⟨by decide, (pipeline_autoresize_spec (fun i => i)
      (fun i wh _ => ⟨wh.1, wh.2, i.px⟩) ⟨2, 1, fun _ _ => ⟨1, 2, 3, 4⟩⟩).2
      (0, 0, 2, 1) (by decide)⟩⟩

/-- Orthogonality fact behind the DCT of a constant signal: for
`0 < k < 2N` the sampled cosines sum to zero (telescoping against `sin`). -/
theorem cos_sum_zero (N k : ℕ) (hk0 : 0 < k) (hk : k < 2 * N) :
    ∑ n ∈ Finset.range N, Real.cos (Real.pi * k * (2 * n + 1) / (2 * N)) = 0 := by
  have hN : 0 < N := by omega
  have hNR : (0:ℝ) < (N:ℝ) := by exact_mod_cast hN
  have h2N : (2:ℝ) * (N:ℝ) ≠ 0 := by positivity
  set θ : ℝ := Real.pi * k / (2 * N) with hθdef
  have hang : ∀ n : ℕ,
      Real.pi * k * (2 * n + 1) / (2 * N) = (2 * (n:ℝ) + 1) * θ := by
    intro n
    rw [hθdef]
    field_simp
    ring
  have hθpos : 0 < θ := by
    rw [hθdef]
    have hkR : (0:ℝ) < (k:ℝ) := by exact_mod_cast hk0
    positivity
  have hθlt : θ < Real.pi := by
    rw [hθdef, div_lt_iff₀ (by positivity)]
    have hkR : (k:ℝ) < 2 * N := by exact_mod_cast hk
    nlinarith [Real.pi_pos]
  have hsin : 0 < Real.sin θ := Real.sin_pos_of_pos_of_lt_pi hθpos hθlt
  have htel : ∑ n ∈ Finset.range N,
      (Real.sin (2 * ((n:ℝ) + 1) * θ) - Real.sin (2 * (n:ℝ) * θ))
      = Real.sin (2 * (N:ℝ) * θ) - Real.sin (2 * (0:ℝ) * θ) := by
    have h := Finset.sum_range_sub (fun n : ℕ => Real.sin (2 * (n:ℝ) * θ)) N
    push_cast at h
    exact h
  have hterm : ∀ n : ℕ, 2 * Real.sin θ * Real.cos ((2 * (n:ℝ) + 1) * θ)
      = Real.sin (2 * ((n:ℝ) + 1) * θ) - Real.sin (2 * (n:ℝ) * θ) := by
    intro n
    rw [show 2 * ((n:ℝ) + 1) * θ = (2 * (n:ℝ) + 1) * θ + θ by ring,
        show 2 * (n:ℝ) * θ = (2 * (n:ℝ) + 1) * θ - θ by ring,
        Real.sin_add, Real.sin_sub]
    ring
  have hmul : 2 * Real.sin θ *
      ∑ n ∈ Finset.range N, Real.cos (Real.pi * k * (2 * n + 1) / (2 * N))
      = Real.sin (2 * (N:ℝ) * θ) - Real.sin (2 * (0:ℝ) * θ) := by
    rw [Finset.mul_sum, ← htel]
    refine Finset.sum_congr rfl fun n _ => ?_
    rw [hang n]
    exact hterm n
  have hend : Real.sin (2 * (N:ℝ) * θ) = 0 := by
    have h2Nθ : 2 * (N:ℝ) * θ = (k:ℝ) * Real.pi := by
      rw [hθdef]
      field_simp
      ring
    rw [h2Nθ]
    exact Real.sin_nat_mul_pi k
  have hzero : Real.sin (2 * (0:ℝ) * θ) = 0 := by norm_num
  rw [hend, hzero, sub_zero] at hmul
  rcases mul_eq_zero.mp hmul with h | h
  · exact absurd h (by positivity)
  · exact h

/-- `scipy` DCT of a constant signal: `2Nc` at frequency zero, zero at
every other frequency below `2N`. -/
theorem dct_const (N k : ℕ) (c : ℝ) (hk : k < 2 * N) :
    dct N (fun _ => c) k = if k = 0 then 2 * (N:ℝ) * c else 0 := by
  by_cases h0 : k = 0
  · subst h0
    rw [if_pos rfl]
    unfold dct
    have : ∀ n ∈ Finset.range N,
        c * Real.cos (Real.pi * (0:ℕ) * (2 * n + 1) / (2 * N)) = c := by
      intro n _
      norm_num
    rw [Finset.sum_congr rfl this, Finset.sum_const, Finset.card_range]
    push_cast
    ring
  · rw [if_neg h0]
    unfold dct
    rw [← Finset.mul_sum, cos_sum_zero N k (Nat.pos_of_ne_zero h0) hk]
    ring

/-- The DCT is additive in the signal. -/
theorem dct_add (N : ℕ) (x y : ℕ → ℝ) (k : ℕ) :
    dct N (fun n => x n + y n) k = dct N x k + dct N y k := by
  unfold dct
  rw [← mul_add, ← Finset.sum_add_distrib]
  congr 1
  refine Finset.sum_congr rfl fun n _ => ?_
  ring

/-- The DCT at frequency zero is twice the plain sum of the signal. -/
theorem dct_zero_eq (N : ℕ) (x : ℕ → ℝ) :
    dct N x 0 = 2 * ∑ n ∈ Finset.range N, x n := by
  unfold dct
  congr 1
  refine Finset.sum_congr rfl fun n _ => ?_
  norm_num

/-- Absolute bound on a DCT coefficient by the absolute sum of the signal
(`|cos| ≤ 1`). -/
theorem dct_abs_le (N : ℕ) (x : ℕ → ℝ) (k : ℕ) :
    |dct N x k| ≤ 2 * ∑ n ∈ Finset.range N, |x n| := by
  unfold dct
  rw [abs_mul, abs_two]
  have h1 : |∑ n ∈ Finset.range N,
      x n * Real.cos (Real.pi * k * (2 * n + 1) / (2 * N))|
      ≤ ∑ n ∈ Finset.range N, |x n| := by
    refine le_trans (Finset.abs_sum_le_sum_abs _ _) ?_
    refine Finset.sum_le_sum fun n _ => ?_
    rw [abs_mul]
    calc |x n| * |Real.cos (Real.pi * k * (2 * n + 1) / (2 * N))|
        ≤ |x n| * 1 := by
          exact mul_le_mul_of_nonneg_left (Real.abs_cos_le_one _) (abs_nonneg _)
      _ = |x n| := mul_one _
  nlinarith [abs_nonneg (∑ n ∈ Finset.range N, x n * Real.cos (Real.pi * k * (2 * n + 1) / (2 * N)))]

/-- The DCT only depends on the first `N` samples of the signal. -/
theorem dct_congr (N : ℕ) (x y : ℕ → ℝ) (k : ℕ)
    (h : ∀ n, n < N → x n = y n) : dct N x k = dct N y k := by
  unfold dct
  congr 1
  exact Finset.sum_congr rfl fun n hn => by
    rw [h n (Finset.mem_range.mp hn)]

/-- The 2-D DCT only depends on the `N × N` window of the grid. -/
theorem dct2d_congr (N : ℕ) (p q : ℕ → ℕ → ℝ) (k l : ℕ)
    (h : ∀ n m, n < N → m < N → p n m = q n m) :
    dct2d N p k l = dct2d N q k l := by
  unfold dct2d
  refine dct_congr N _ _ l fun m hm => ?_
  exact dct_congr N _ _ k fun n hn => h n m hn hm

/-- Adding a constant to the grid adds the 2-D DCT of the constant grid. -/
theorem dct2d_add_const (N : ℕ) (p : ℕ → ℕ → ℝ) (c : ℝ) (k l : ℕ) :
    dct2d N (fun n m => p n m + c) k l
      = dct2d N p k l + dct2d N (fun _ _ => c) k l := by
  unfold dct2d
  have hinner : (fun m => dct N (fun n => p n m + c) k)
      = fun m => dct N (fun n => p n m) k + dct N (fun _ => c) k :=
    funext fun m => dct_add N (fun n => p n m) (fun _ => c) k
  rw [hinner]
  exact dct_add N _ _ l

/-- 2-D DCT of a constant grid: `(2N)·(2N)·c` at the DC position, zero at
every other position with both frequencies below `2N`. -/
theorem dct2d_const (N k l : ℕ) (c : ℝ) (hk : k < 2 * N) (hl : l < 2 * N) :
    dct2d N (fun _ _ => c) k l
      = if k = 0 ∧ l = 0 then (2 * (N:ℝ)) * (2 * (N:ℝ)) * c else 0 := by
  unfold dct2d
  have hinner : (fun m : ℕ => dct N (fun _ => c) k)
      = fun _ : ℕ => (if k = 0 then 2 * (N:ℝ) * c else 0) :=
    funext fun m => dct_const N k c hk
  rw [hinner, dct_const N l _ hl]
  by_cases h0 : k = 0 <;> by_cases h1 : l = 0 <;> simp [h0, h1] <;> ring

/-- For a grid that is non-negative on the window, every 2-D DCT
coefficient is at most the DC coefficient. -/
theorem dct2d_le_dc (N : ℕ) (p : ℕ → ℕ → ℝ)
    (hp : ∀ n m, n < N → m < N → 0 ≤ p n m) (k l : ℕ) :
    dct2d N p k l ≤ dct2d N p 0 0 := by
  have hdc : dct2d N p 0 0
      = 2 * ∑ m ∈ Finset.range N, (2 * ∑ n ∈ Finset.range N, p n m) := by
    unfold dct2d
    rw [dct_zero_eq]
    congr 1
    exact Finset.sum_congr rfl fun m _ => dct_zero_eq N fun n => p n m
  calc dct2d N p k l ≤ |dct2d N p k l| := le_abs_self _
    _ ≤ 2 * ∑ m ∈ Finset.range N, |dct N (fun n => p n m) k| := dct_abs_le N _ l
    _ ≤ 2 * ∑ m ∈ Finset.range N, (2 * ∑ n ∈ Finset.range N, |p n m|) := by
        have := Finset.sum_le_sum (s := Finset.range N)
          (f := fun m => |dct N (fun n => p n m) k|)
          (g := fun m => 2 * ∑ n ∈ Finset.range N, |p n m|)
          (fun m _ => dct_abs_le N (fun n => p n m) k)
        nlinarith [this]
    _ = 2 * ∑ m ∈ Finset.range N, (2 * ∑ n ∈ Finset.range N, p n m) := by
        congr 1
        refine Finset.sum_congr rfl fun m hm => ?_
        congr 1
        refine Finset.sum_congr rfl fun n hn => ?_
        exact abs_of_nonneg (hp n m (Finset.mem_range.mp hn) (Finset.mem_range.mp hm))
    _ = dct2d N p 0 0 := hdc.symm

/-- A constant list is sorted. -/
theorem sorted_replicate (n : ℕ) (a : ℝ) :
    List.Sorted (· ≤ ·) (List.replicate n a) :=
  List.pairwise_replicate.mpr (Or.inr le_rfl)

/-- Sorting a list headed by an upper bound of the rest moves the head to
the end. -/
theorem insertionSort_cons_max (x : ℝ) (r : List ℝ) (hx : ∀ y ∈ r, y ≤ x) :
    List.insertionSort (· ≤ ·) (x :: r) = List.insertionSort (· ≤ ·) r ++ [x] := by
  refine List.eq_of_perm_of_sorted ?_ (List.sorted_insertionSort _ _) ?_
  · exact (List.perm_insertionSort _ _).trans
      ((List.Perm.cons x (List.perm_insertionSort _ r).symm).trans
        (List.perm_append_singleton x _).symm)
  · refine List.pairwise_append.mpr
      ⟨List.sorted_insertionSort _ _, List.sorted_singleton _, ?_⟩
    intro a ha b hb
    rw [List.mem_singleton] at hb
    subst hb
    exact hx a ((List.perm_insertionSort _ r).subset ha)

/-- The `numpy` median of 256 values whose first element dominates the
other 255 does not depend on that first element: only the two middle order
statistics of the rest matter. -/
theorem npMedian_cons_of_max (x x' : ℝ) (r : List ℝ) (hlen : r.length = 255)
    (hx : ∀ y ∈ r, y ≤ x) (hx' : ∀ y ∈ r, y ≤ x') :
    npMedian (x :: r) = npMedian (x' :: r) := by
  unfold npMedian
  rw [insertionSort_cons_max x r hx, insertionSort_cons_max x' r hx']
  have hlr : (List.insertionSort (· ≤ ·) r).length = 255 := by
    rw [List.length_insertionSort, hlen]
  simp only [List.length_cons, hlen]
  norm_num
  have hget : ∀ (y : ℝ) (n : ℕ), n < 255 →
      (List.insertionSort (· ≤ ·) r ++ [y])[n]? = (List.insertionSort (· ≤ ·) r)[n]? := by
    intro y n hn
    rw [List.getElem?_append, if_pos (by rw [hlr]; exact hn)]
  rw [hget x 127 (by norm_num), hget x 128 (by norm_num),
    hget x' 127 (by norm_num), hget x' 128 (by norm_num)]

/-- The `numpy` median of a dominating value followed by 255 zeros is 0. -/
theorem npMedian_cons_replicate (x : ℝ) (hx : 0 ≤ x) :
    npMedian (x :: List.replicate 255 (0:ℝ)) = 0 := by
  unfold npMedian
  rw [insertionSort_cons_max x _ (fun y hy => by
      rw [List.eq_of_mem_replicate hy]; exact hx),
    (sorted_replicate 255 0).insertionSort_eq]
  simp only [List.length_cons, List.length_replicate]
  norm_num
  have hget : ∀ (n : ℕ) (hn : n < 255) (h : n < (List.replicate 255 (0:ℝ) ++ [x]).length),
      (List.replicate 255 (0:ℝ) ++ [x])[n] = 0 := by
    intro n hn h
    rw [List.getElem_append_left (show n < (List.replicate 255 (0:ℝ)).length by
      rw [List.length_replicate]; exact hn), List.getElem_replicate]
  rw [hget 127 (by norm_num), hget 128 (by norm_num)]
  norm_num

/-- The `numpy` median of 256 zeros is 0. -/
theorem npMedian_replicate_zero : npMedian (List.replicate 256 (0:ℝ)) = 0 := by
  unfold npMedian
  rw [(sorted_replicate 256 0).insertionSort_eq]
  simp only [List.length_replicate]
  norm_num [List.getD_eq_getElem?_getD, List.getElem?_replicate]

/-- The retained coefficient list decomposed as its DC head followed by
the 255 non-DC coefficients (row-major: index 0 is position `(0,0)`). -/
theorem dctlowfreq_cons (g : ℕ → ℕ → ℕ) :
    dctlowfreq HASH_SIZE g
      = dct2d 64 (fun n m => ((g n m : ℕ) : ℝ)) 0 0 ::
        (List.range 255).map fun j =>
          dct2d 64 (fun n m => ((g n m : ℕ) : ℝ)) ((j+1)/16) ((j+1)%16) := by
  unfold dctlowfreq
  rw [show HASH_SIZE * HASH_SIZE = 255 + 1 from rfl, List.range_succ_eq_map,
    List.map_cons, List.map_map]
  rfl

/-- A non-clipping uniform brightness shift moves only the DC coefficient
of the 2-D DCT, by `(2·64)·(2·64)·c`. -/
theorem dct2d_shift_point (g : ℕ → ℕ → ℕ) (c : ℤ)
    (hnn : ∀ n m, n < 64 → m < 64 → 0 ≤ (g n m : ℤ) + c) (k l : ℕ)
    (hk : k < 128) (hl : l < 128) :
    dct2d 64 (fun n m => ((shiftGrid g c n m : ℕ) : ℝ)) k l
      = dct2d 64 (fun n m => ((g n m : ℕ) : ℝ)) k l
        + (if k = 0 ∧ l = 0 then (2 * (64:ℝ)) * (2 * 64) * (c:ℝ) else 0) := by
  have hcast : ∀ n m, n < 64 → m < 64 →
      ((shiftGrid g c n m : ℕ) : ℝ) = ((g n m : ℕ) : ℝ) + (c : ℝ) := by
    intro n m hn hm
    unfold shiftGrid
    have h0 := hnn n m hn hm
    have h1 : ((((g n m : ℤ) + c).toNat : ℕ) : ℤ) = (g n m : ℤ) + c :=
      Int.toNat_of_nonneg h0
    have h2 : ((((g n m : ℤ) + c).toNat : ℕ) : ℝ) = (((g n m : ℤ) + c : ℤ) : ℝ) := by
      exact_mod_cast congrArg (fun z : ℤ => (z : ℝ)) h1
    rw [h2]
    push_cast
    ring
  rw [dct2d_congr 64 _ _ k l hcast, dct2d_add_const,
    dct2d_const 64 k l (c:ℝ) (by omega) (by omega)]
  norm_num

/-- The retained coefficients of a shifted grid: same 255 non-DC
coefficients, DC moved by `(2·64)·(2·64)·c`. -/
theorem dctlowfreq_shift (g : ℕ → ℕ → ℕ) (c : ℤ)
    (hnn : ∀ n m, n < 64 → m < 64 → 0 ≤ (g n m : ℤ) + c) :
    dctlowfreq HASH_SIZE (shiftGrid g c)
      = (dct2d 64 (fun n m => ((g n m : ℕ) : ℝ)) 0 0
          + (2 * (64:ℝ)) * (2 * 64) * (c:ℝ)) ::
        (List.range 255).map fun j =>
          dct2d 64 (fun n m => ((g n m : ℕ) : ℝ)) ((j+1)/16) ((j+1)%16) := by
  rw [dctlowfreq_cons]
  congr 1
  · rw [dct2d_shift_point g c hnn 0 0 (by norm_num) (by norm_num),
      if_pos ⟨rfl, rfl⟩]
  · refine List.map_congr_left fun j hj => ?_
    have hj255 : j < 255 := List.mem_range.mp hj
    rw [dct2d_shift_point g c hnn _ _ (by omega) (by omega),
      if_neg (by omega), add_zero]

/-- C7 (amended): a uniform brightness shift that stays within
non-clipping range perturbs only the DC coefficient of the retained block;
the block median is unchanged (the DC coefficient dominates the block for
any non-negative grid, so the two middle order statistics never involve
it) and therefore every fingerprint bit except the first (DC) bit is
unchanged. -/
theorem phash_brightness_tail (g : ℕ → ℕ → ℕ) (c : ℤ)
    (hclip : ∀ n m, n < 64 → m < 64 →
      0 ≤ (g n m : ℤ) + c ∧ (g n m : ℤ) + c ≤ 255) :
    npMedian (dctlowfreq HASH_SIZE (shiftGrid g c))
      = npMedian (dctlowfreq HASH_SIZE g) ∧
    (compute_phash (shiftGrid g c)).tail = (compute_phash g).tail := by
  have hnn : ∀ n m, n < 64 → m < 64 → 0 ≤ (g n m : ℤ) + c :=
    fun n m hn hm => (hclip n m hn hm).1
  have hL := dctlowfreq_cons g
  have hS := dctlowfreq_shift g c hnn
  have hg0 : ∀ n m : ℕ, n < 64 → m < 64 → (0:ℝ) ≤ ((g n m : ℕ) : ℝ) :=
    fun n m _ _ => Nat.cast_nonneg _
  have hs0 : ∀ n m : ℕ, n < 64 → m < 64 → (0:ℝ) ≤ ((shiftGrid g c n m : ℕ) : ℝ) :=
    fun n m _ _ => Nat.cast_nonneg _
  have hboundL : ∀ y ∈ (List.range 255).map (fun j =>
      dct2d 64 (fun n m => ((g n m : ℕ) : ℝ)) ((j+1)/16) ((j+1)%16)),
      y ≤ dct2d 64 (fun n m => ((g n m : ℕ) : ℝ)) 0 0 := by
    intro y hy
    rcases List.mem_map.mp hy with ⟨j, _, rfl⟩
    exact dct2d_le_dc 64 _ hg0 _ _
  have hboundS : ∀ y ∈ (List.range 255).map (fun j =>
      dct2d 64 (fun n m => ((g n m : ℕ) : ℝ)) ((j+1)/16) ((j+1)%16)),
      y ≤ dct2d 64 (fun n m => ((g n m : ℕ) : ℝ)) 0 0
        + (2 * (64:ℝ)) * (2 * 64) * (c:ℝ) := by
    intro y hy
    rcases List.mem_map.mp hy with ⟨j, hjmem, rfl⟩
    have hj255 : j < 255 := List.mem_range.mp hjmem
    have h1 : dct2d 64 (fun n m => ((g n m : ℕ) : ℝ)) ((j+1)/16) ((j+1)%16)
        = dct2d 64 (fun n m => ((shiftGrid g c n m : ℕ) : ℝ)) ((j+1)/16) ((j+1)%16) := by
      rw [dct2d_shift_point g c hnn _ _ (by omega) (by omega),
        if_neg (by omega), add_zero]
    rw [h1]
    calc dct2d 64 (fun n m => ((shiftGrid g c n m : ℕ) : ℝ)) ((j+1)/16) ((j+1)%16)
        ≤ dct2d 64 (fun n m => ((shiftGrid g c n m : ℕ) : ℝ)) 0 0 :=
          dct2d_le_dc 64 _ hs0 _ _
      _ = dct2d 64 (fun n m => ((g n m : ℕ) : ℝ)) 0 0
            + (2 * (64:ℝ)) * (2 * 64) * (c:ℝ) := by
          rw [dct2d_shift_point g c hnn 0 0 (by norm_num) (by norm_num),
            if_pos ⟨rfl, rfl⟩]
  have hlenr : ((List.range 255).map fun j =>
      dct2d 64 (fun n m => ((g n m : ℕ) : ℝ)) ((j+1)/16) ((j+1)%16)).length = 255 := by
    simp
  have hmed : npMedian (dctlowfreq HASH_SIZE (shiftGrid g c))
      = npMedian (dctlowfreq HASH_SIZE g) := by
    rw [hL, hS]
    exact npMedian_cons_of_max _ _ _ hlenr hboundS hboundL
  refine ⟨hmed, ?_⟩
  show ((dctlowfreq HASH_SIZE (shiftGrid g c)).map fun x =>
      if npMedian (dctlowfreq HASH_SIZE (shiftGrid g c)) < x then true else false).tail
    = ((dctlowfreq HASH_SIZE g).map fun x =>
      if npMedian (dctlowfreq HASH_SIZE g) < x then true else false).tail
  rw [hmed, hS, hL]
  simp

/-- Witness for C7's amended statement: brightening the all-black grid by
one step (non-clipping). -/
theorem phash_brightness_tail_witness :
    (∀ n m : ℕ, n < 64 → m < 64 →
      0 ≤ (((fun _ _ : ℕ => (0:ℕ)) n m : ℕ) : ℤ) + 1 ∧
      (((fun _ _ : ℕ => (0:ℕ)) n m : ℕ) : ℤ) + 1 ≤ 255) ∧
    (npMedian (dctlowfreq HASH_SIZE (shiftGrid (fun _ _ => 0) 1))
       = npMedian (dctlowfreq HASH_SIZE (fun _ _ => 0)) ∧
     (compute_phash (shiftGrid (fun _ _ => 0) 1)).tail
       = (compute_phash (fun _ _ => 0)).tail) :=
  ⟨fun n m _ _ => by norm_num,
   phash_brightness_tail (fun _ _ => 0) 1 (fun n m _ _ => by norm_num)⟩

/-- The retained coefficients of a constant grid: `(2·64)·(2·64)·v` at DC,
zero elsewhere. -/
theorem dctlowfreq_const (v : ℕ) :
    dctlowfreq HASH_SIZE (fun _ _ => v)
      = ((2 * (64:ℝ)) * (2 * 64) * (v:ℕ)) :: List.replicate 255 0 := by
  rw [dctlowfreq_cons]
  congr 1
  · rw [dct2d_const 64 0 0 ((v:ℕ):ℝ) (by norm_num) (by norm_num)]
    norm_num
  · rw [List.eq_replicate_iff]
    refine ⟨by simp, ?_⟩
    intro b hb
    rcases List.mem_map.mp hb with ⟨j, hjmem, rfl⟩
    have hj255 : j < 255 := List.mem_range.mp hjmem
    rw [dct2d_const 64 _ _ ((v:ℕ):ℝ) (by omega) (by omega),
      if_neg (by omega)]

/-- The fingerprint of a constant positive grid: only the DC bit is set
(the DC coefficient dominates the zero median strictly). -/
theorem phash_const_pos (v : ℕ) (hv : 0 < v) :
    compute_phash (fun _ _ => v) = true :: List.replicate 255 false := by
  have hlow := dctlowfreq_const v
  have hmed : npMedian (dctlowfreq HASH_SIZE (fun _ _ => v)) = 0 := by
    rw [hlow]
    exact npMedian_cons_replicate _ (by positivity)
  show (dctlowfreq HASH_SIZE (fun _ _ => v)).map (fun x =>
      if npMedian (dctlowfreq HASH_SIZE (fun _ _ => v)) < x then true else false)
    = true :: List.replicate 255 false
  rw [hmed, hlow, List.map_cons, List.map_replicate]
  have hvR : (0:ℝ) < (v:ℕ) := by exact_mod_cast hv
  rw [if_pos (by nlinarith), if_neg (lt_irrefl 0)]

/-- The fingerprint of the all-black grid: every coefficient and the
median are zero, so the strict threshold clears every bit. -/
theorem phash_const_zero :
    compute_phash (fun _ _ => 0) = List.replicate 256 false := by
  have hlow : dctlowfreq HASH_SIZE (fun _ _ => 0) = List.replicate 256 (0:ℝ) := by
    rw [show List.replicate 256 (0:ℝ) = 0 :: List.replicate 255 0 from rfl,
      dctlowfreq_const 0,
      show ((2 * (64:ℝ)) * (2 * 64) * ((0:ℕ):ℝ)) = 0 from by norm_num]
  have hmed : npMedian (dctlowfreq HASH_SIZE (fun _ _ => 0)) = 0 := by
    rw [hlow]
    exact npMedian_replicate_zero
  show (dctlowfreq HASH_SIZE (fun _ _ => 0)).map (fun x =>
      if npMedian (dctlowfreq HASH_SIZE (fun _ _ => 0)) < x then true else false)
    = List.replicate 256 false
  rw [hmed, hlow, List.map_replicate, if_neg (lt_irrefl 0)]

/-- C7 (counterexample): brightening the all-black image by one step is a
uniform non-clipping shift, yet the fingerprint changes — the DC bit flips
from clear to set because the DC coefficient crosses the (zero) median. -/
theorem phash_brightness_counterexample :
    (∀ n m : ℕ, n < 64 → m < 64 →
      0 ≤ (((fun _ _ : ℕ => (0:ℕ)) n m : ℕ) : ℤ) + 1 ∧
      (((fun _ _ : ℕ => (0:ℕ)) n m : ℕ) : ℤ) + 1 ≤ 255) ∧
    compute_phash (shiftGrid (fun _ _ => 0) 1) ≠ compute_phash (fun _ _ => 0) := by
  refine ⟨fun n m _ _ => by norm_num, ?_⟩
  have hsg : shiftGrid (fun _ _ => 0) 1 = fun _ _ => 1 := by
    funext n m
    simp [shiftGrid]
  rw [hsg, phash_const_pos 1 (by norm_num), phash_const_zero,
    show List.replicate 256 false = false :: List.replicate 255 false from rfl]
  exact fun h => Bool.noConfusion (List.cons.inj h).1

/-- C2 (amended): for every image the fingerprint is a fixed-length bit
vector of exactly `HASH_SIZE · HASH_SIZE = 256` bits, derived under the
fixed global configuration constant `HASH_SIZE = 16` that is never changed
per call (`imagehash.phash` emits one bit per retained coefficient of the
`hash_size × hash_size` block). -/
theorem phash_bit_length (g : ℕ → ℕ → ℕ) :
    (compute_phash g).length = HASH_SIZE * HASH_SIZE ∧
    HASH_SIZE * HASH_SIZE = 256 := by
  constructor
  · show ((dctlowfreq HASH_SIZE g).map _).length = HASH_SIZE * HASH_SIZE
    rw [List.length_map]
    unfold dctlowfreq
    rw [List.length_map, List.length_range]
  · rfl

/-- C2 (counterexample): the fingerprint of a concrete image has 256 bits,
not 64 — `HASH_SIZE = 16` yields a `16 × 16` retained block, one bit per
coefficient (the source comment "⇒ 64-bit hash" miscounts). -/
theorem phash_bit_length_counterexample :
    (compute_phash (fun _ _ => 0)).length ≠ 64 := by
  have h : (compute_phash (fun _ _ => 0)).length = 256 := by
    show ((dctlowfreq HASH_SIZE (fun _ _ => 0)).map _).length = 256
    rw [List.length_map]
    unfold dctlowfreq
    rw [List.length_map, List.length_range]
    rfl
  rw [h]
  norm_num
